import Mathlib

/-!
Verification of the mosaicatcher counting/classification pipeline
(`src/main.cpp`) against its specification.

Floating-point values of the C++ source are embedded as exact rationals
(`ℚ`); machine containers become `List`s.  Code of companion headers that
is not part of the repository snapshot (the boost median accumulator, the
HMM container) is modelled from the specification where needed; each such
definition is marked in its doc comment.
-/

namespace Mosaic

/-- Per-cell, per-bin counter (`Counter` of counts.hpp as used by main.cpp):
watson/crick read counts plus the state label written by the decode stage. -/
structure Counter where
  watson_count : ℕ
  crick_count : ℕ
  label : String

instance : Inhabited Counter := ⟨⟨0, 0, "None"⟩⟩

/-- Per-cell information (`CellInfo`): original input-file index `id`, the
sample name from the SM tag, and the median per-bin total count. -/
structure CellInfo where
  id : ℕ
  sample_name : String
  median_bin_count : ℚ

instance : Inhabited CellInfo := ⟨⟨0, "", 0⟩⟩

/-- Genomic bin (`Interval`): chromosome id and half-open coordinates. -/
structure Interval where
  chr : ℕ
  start : ℕ
  end_ : ℕ

instance : Inhabited Interval := ⟨⟨0, 0, 0⟩⟩

/-- Mean of a list of rationals (boost `mean` accumulator): sum over count.
Empty input yields `0` (division by zero in `ℚ`). -/
def listMean (xs : List ℚ) : ℚ := xs.sum / xs.length

/-- Population variance (boost lazy `variance` accumulator):
second moment minus squared mean. -/
def listVar (xs : List ℚ) : ℚ := (xs.map (fun x => x ^ 2)).sum / xs.length - listMean xs ^ 2

/-- Median-normalization of one cell's counters (main.cpp lines 268-272):
both strand counts are divided by the cell's `median_bin_count`,
unconditionally — there is no guard against a zero divisor. -/
def normCell (cnt : List Counter) (median_bin_count : ℚ) : List (ℚ × ℚ) :=
  cnt.map (fun c => ((c.watson_count : ℚ) / median_bin_count,
                     (c.crick_count : ℚ) / median_bin_count))

/-- Normalized counts for all cells (`norm_counts`, lines 268-272). -/
def normCountsOf (counts : List (List Counter)) (medians : List ℚ) : List (List (ℚ × ℚ)) :=
  (counts.zip medians).map (fun cm => normCell cm.1 cm.2)

/-- Per-bin across-cells mean of normalized watson+crick (`bin_means`,
lines 275-283). -/
def binMeansOf (counts : List (List Counter)) (medians : List ℚ) (nbins : ℕ) : List ℚ :=
  (List.range nbins).map (fun bin =>
    listMean ((normCountsOf counts medians).map
      (fun nc => (nc.getD bin (0, 0)).1 + (nc.getD bin (0, 0)).2)))

/-- Good/bad bin classification loop (lines 294-298): scanning the bin
means in order with running index `bin`, a bin whose mean is `> 0.01` and
`< hi` is appended to `good_bins`; otherwise a tag is appended to
`bad_bins`: `'l'` if the mean is `≤ 0.01`, else `'h'`.  `hi` stands for
`my_mean + 3*my_sd` computed upstream from the bin means. -/
def binClassify (hi : ℚ) : ℕ → List ℚ → List ℕ × List Char
  | _, [] => ([], [])
  | bin, m :: rest =>
    let r := binClassify hi (bin + 1) rest
    if 1/100 < m ∧ m < hi then (bin :: r.1, r.2)
    else (r.1, (if m ≤ 1/100 then 'l' else 'h') :: r.2)

/-- The `good_bins` sequence produced by the classification loop. -/
def goodBinsOf (binMeans : List ℚ) (hi : ℚ) : List ℕ := (binClassify hi 0 binMeans).1

/-- The `bad_bins` tag sequence produced by the classification loop. -/
def badBinsOf (binMeans : List ℚ) (hi : ℚ) : List Char := (binClassify hi 0 binMeans).2

/-- Watson+crick totals of one cell over the good bins only
(lines 341-344): `counts[i][good_bins[bini]].crick_count + ... .watson_count`. -/
def cellGoodTotals (cnt : List Counter) (good_bins : List ℕ) : List ℚ :=
  good_bins.map (fun b =>
    ((cnt.getD b default).crick_count + (cnt.getD b default).watson_count : ℕ))

/-- Mean of one cell's watson+crick totals over good bins only (lines 341-350). -/
def cellGoodMean (cnt : List Counter) (good_bins : List ℕ) : ℚ :=
  listMean (cellGoodTotals cnt good_bins)

/-- Population variance of one cell's watson+crick totals over good bins
only (lines 341-350). -/
def cellGoodVar (cnt : List Counter) (good_bins : List ℕ) : ℚ :=
  listVar (cellGoodTotals cnt good_bins)

/-- `std::inner_product` with initial value `0.0f` (lines 356-357). -/
def innerProd (a b : List ℚ) : ℚ := ((a.zip b).map (fun x => x.1 * x.2)).sum

/-- Closed-form method-of-moments fit of the dispersion parameter
(lines 356-357): `p = Σ mean_i² / Σ (mean_i · var_i)`. -/
def samplePFit (means vars : List ℚ) : ℚ := innerProd means means / innerProd means vars

/-- The member cells of one sample: entries of `cells`/`counts` (zipped in
index order, the order in which lines 338-351 fold them into the
`samples` map) whose sample name matches. -/
def sampleMembers (cells : List CellInfo) (counts : List (List Counter)) (name : String) :
    List (List Counter) :=
  ((cells.zip counts).filter (fun cc => cc.1.sample_name == name)).map (fun cc => cc.2)

/-- The `means` sequence accumulated for one sample (lines 338-351). -/
def sampleMeans (cells : List CellInfo) (counts : List (List Counter)) (good_bins : List ℕ)
    (name : String) : List ℚ :=
  (sampleMembers cells counts name).map (fun c => cellGoodMean c good_bins)

/-- The `vars` sequence accumulated for one sample (lines 338-351). -/
def sampleVars (cells : List CellInfo) (counts : List (List Counter)) (good_bins : List ℕ)
    (name : String) : List ℚ :=
  (sampleMembers cells counts name).map (fun c => cellGoodVar c good_bins)

/-- The fitted dispersion parameter `s.p` of a sample (lines 353-358). -/
def sampleP (cells : List CellInfo) (counts : List (List Counter)) (good_bins : List ℕ)
    (name : String) : ℚ :=
  samplePFit (sampleMeans cells counts good_bins name) (sampleVars cells counts good_bins name)

/-- Parameters of one `hmm::NegativeBinomial(p, n)` emission factor as
constructed by main.cpp; only the constructor arguments matter to the
claims (the distribution internals live in distribution.hpp). -/
structure NegativeBinomial where
  p : ℚ
  n : ℚ
deriving DecidableEq

/-- Emission re-parameterization for one cell (lines 398-411):
`n = median_bin_count / 2 * p / (1 - p)`, `z = 0.5` ("mean in zero bins"),
and the three states CC, WC, WW get the (crick, watson) mean pairs
`(2n, z)`, `(n, n)`, `(z, 2n)`. -/
def cellEmissions (p : ℚ) (median_bin_count : ℚ) : List (NegativeBinomial × NegativeBinomial) :=
  let n : ℚ := median_bin_count / 2 * p / (1 - p)
  let z : ℚ := 1/2
  [(⟨p, 2*n⟩, ⟨p, z⟩), (⟨p, n⟩, ⟨p, n⟩), (⟨p, z⟩, ⟨p, 2*n⟩)]

/-- Per-cell decode setup (lines 398-413): the emissions for retained cell
`i` use the fitted `p` of the cell's sample and the cell's own
`median_bin_count`. -/
def decodeEmissions (cells : List CellInfo) (counts : List (List Counter)) (good_bins : List ℕ)
    (i : ℕ) : List (NegativeBinomial × NegativeBinomial) :=
  cellEmissions (sampleP cells counts good_bins (cells.getD i default).sample_name)
    (cells.getD i default).median_bin_count

/-- Modelled from the spec: the exact median of a finite list of naturals
— the median accumulator `TMedianAccumulator` is declared in counts.hpp,
which is not part of the repository snapshot.  Per the spec, the standard
median: the middle element of the sorted sequence, or the average of the
two middle elements for even-sized input; the empty list yields 0. -/
def listMedian (l : List ℕ) : ℚ :=
  let s := List.insertionSort (· ≤ ·) l
  if l.length = 0 then 0
  else if l.length % 2 = 0 then
    ((s.getD (l.length / 2 - 1) 0 + s.getD (l.length / 2) 0 : ℕ) : ℚ) / 2
  else (s.getD (l.length / 2) 0 : ℚ)

/-- Median per-bin total count of a cell (lines 216-222): watson+crick is
accumulated over all bins (pre-filter), then the median is taken. -/
def medianBinCount (cnt : List Counter) : ℚ :=
  listMedian (cnt.map (fun c => c.watson_count + c.crick_count))

/-- The claim's reading of the median: the exact median of the finite
multiset, via the canonical sorted sequence of the multiset. -/
def multisetMedian (m : Multiset ℕ) : ℚ :=
  let s := Multiset.sort (· ≤ ·) m
  if Multiset.card m = 0 then 0
  else if Multiset.card m % 2 = 0 then
    ((s.getD (Multiset.card m / 2 - 1) 0 + s.getD (Multiset.card m / 2) 0 : ℕ) : ℚ) / 2
  else (s.getD (Multiset.card m / 2) 0 : ℚ)

/-- The estimation stage's observable outcome for one sample (lines
353-358 together with the sample-info output, lines 361-377): the fitted
`p` and the list of error reports the stage produces.  The source assigns
`s.p` unconditionally and emits no message or flag for any value of `p` —
no `EstimationError` or range check on `p` exists anywhere in the code —
so the report list is empty. -/
def estimationStage (means vars : List ℚ) : ℚ × List String :=
  (samplePFit means vars, [])

/-- Transition probability heuristic (line 392): `p_trans = 10 / total_bin_count`. -/
def p_trans (nbins : ℕ) : ℚ := 10 / nbins

/-- The 3×3 transition matrix passed to `hmm.set_transitions` (lines 393-395). -/
def transitionMatrix (nbins : ℕ) : List (List ℚ) :=
  [[1 - 2 * p_trans nbins, p_trans nbins, p_trans nbins],
   [p_trans nbins, 1 - 2 * p_trans nbins, p_trans nbins],
   [p_trans nbins, p_trans nbins, 1 - 2 * p_trans nbins]]

/-- The initial-state distribution passed to `hmm.set_initials`
(line 389).  Modelled from the spec as stored unchanged: `set_initials`
itself lives in hmm.hpp, outside the repository snapshot, and the spec
describes the HMM engine as parameterized by the given initial
distribution. -/
def initials : List ℚ := [0.3333, 0.3333, 0.3333]

/-- The cells created by the header pre-scan (lines 156-170): entry `i`
has id `i` and the SM-tag sample name of input file `i`;
`median_bin_count` is filled in only after counting. -/
def headerCells (sampleNames : List String) : List CellInfo :=
  (List.range sampleNames.length).map (fun i => ⟨i, sampleNames.getD i "", 0⟩)

/-- The counting loop (lines 205-214).  `reader f` stands for
`count_sorted_reads` on input file `f`: `some` counters on success, `none`
when the file cannot be read.  On failure the entries at the write
position `i` are erased from `cells` and `counts` in lock-step, a warning
naming the file is recorded, `i` stays put, and the loop continues with
the next file. -/
def countingLoop (reader : ℕ → Option (List Counter)) :
    List ℕ → List CellInfo → List (List Counter) → ℕ → List ℕ →
      List CellInfo × List (List Counter) × List ℕ
  | [], cells, counts, _, warnings => (cells, counts, warnings)
  | i_f :: files, cells, counts, i, warnings =>
    match reader i_f with
    | some res => countingLoop reader files cells (counts.set i res) (i + 1) warnings
    | none =>
        countingLoop reader files (cells.eraseIdx i) (counts.eraseIdx i) i (warnings ++ [i_f])

/-- The whole counting pass (lines 133-134, 156-170 and 203-214):
pre-sized `cells` and `counts`, then the loop over all input files. -/
def countingPass (sampleNames : List String) (reader : ℕ → Option (List Counter)) :
    List CellInfo × List (List Counter) × List ℕ :=
  countingLoop reader (List.range sampleNames.length) (headerCells sampleNames)
    (List.replicate sampleNames.length []) 0 []

/-- One row of the primary output table (lines 421-432). -/
structure Row where
  chrom : String
  start : ℕ
  end_ : ℕ
  sample : String
  cell : String
  c : ℕ
  w : ℕ
  label : String
deriving DecidableEq

/-- The primary output table body (lines 422-434): for every retained
cell index `i` and every bin in order, one row.  The cell-identifier
column is `conf.f_in[i].stem()` (line 428): the ORIGINAL input-file list
indexed by the post-erasure position `i`. -/
def outputRows (targetNames : List String) (bins : List Interval) (stems : List String)
    (cells : List CellInfo) (counts : List (List Counter)) : List Row :=
  (List.range counts.length).flatMap (fun i =>
    (List.range (counts.getD i []).length).map (fun bin =>
      { chrom := targetNames.getD (bins.getD bin default).chr ""
        start := (bins.getD bin default).start
        end_ := (bins.getD bin default).end_
        sample := (cells.getD i default).sample_name
        cell := stems.getD i ""
        c := ((counts.getD i []).getD bin default).crick_count
        w := ((counts.getD i []).getD bin default).watson_count
        label := ((counts.getD i []).getD bin default).label }))

/-- Concrete failing run for the output table: two input files of one
sample; file 0 cannot be read, file 1 yields one bin with watson 5,
crick 7. -/
def readerEx : ℕ → Option (List Counter) :=
  fun f => if f = 0 then none else some [⟨5, 7, "WC"⟩]

/-- The counting pass of the concrete failing run. -/
def passEx : List CellInfo × List (List Counter) × List ℕ :=
  countingPass ["S", "S"] readerEx

/-- The output table of the concrete failing run, with input-file stems
"cellA" (file 0, dropped) and "cellB" (file 1, retained). -/
def rowsEx : List Row :=
  outputRows ["chr1"] [⟨0, 0, 1000⟩] ["cellA", "cellB"] passEx.1 passEx.2.1

/-- The while-loop of the good-bin chromosome-index construction
(lines 327-328): advance `pos` past entries whose chromosome id is
`< chr`. -/
def advancePos (chrs : List ℕ) (chr : ℕ) (pos : ℕ) : ℕ :=
  if h : pos < chrs.length ∧ chrs.getD pos 0 < chr then advancePos chrs chr (pos + 1) else pos
termination_by chrs.length - pos
decreasing_by omega

/-- The per-chromosome loop (lines 326-332): for `k` chromosomes starting
at `chr`, record the advanced `pos` (clamped to the sequence length, as
in line 330) and carry it to the next chromosome. -/
def chromIndexLoop (chrs : List ℕ) : ℕ → ℕ → ℕ → List ℕ
  | _pos, _chr, 0 => []
  | pos, chr, k + 1 =>
    (if chrs.length ≤ advancePos chrs chr pos then chrs.length else advancePos chrs chr pos)
      :: chromIndexLoop chrs (advancePos chrs chr pos) (chr + 1) k

/-- Chromosome index over a sequence of per-entry chromosome ids: the
loop over all `nTargets` chromosomes followed by the sentinel push of the
total entry count (line 198 for the raw index, line 334 for the good-bin
index). -/
def chromIndex (chrs : List ℕ) (nTargets : ℕ) : List ℕ :=
  chromIndexLoop chrs 0 0 nTargets ++ [chrs.length]

/-- Modelled from the spec for the raw index fill: `read_dynamic_bins` /
`create_fixed_bins` live in intervals.hpp, outside the repository
snapshot, and the spec says the good-bin index is "built the same way as
the raw chromosome index".  The raw chromosome index over the bins'
chromosome ids, with the sentinel appended by main.cpp line 198. -/
def rawChromMap (bins : List Interval) (nTargets : ℕ) : List ℕ :=
  chromIndex (bins.map (fun b => b.chr)) nTargets

/-- The good-bin chromosome index `good_map` (lines 323-334), built over
the chromosome ids of the good bins' underlying bins. -/
def goodChromMap (bins : List Interval) (good_bins : List ℕ) (nTargets : ℕ) : List ℕ :=
  chromIndex (good_bins.map (fun g => (bins.getD g default).chr)) nTargets

/-- The normalization of lines 269-272 applied to a cell with the cell's
own `median_bin_count` as divisor. -/
def cellNormCounts (cnt : List Counter) : List (ℚ × ℚ) :=
  normCell cnt (medianBinCount cnt)

theorem binClassify_cons_pos (hi m : ℚ) (rest : List ℚ) (s : ℕ)
    (hP : 1/100 < m ∧ m < hi) :
    binClassify hi s (m :: rest) =
      (s :: (binClassify hi (s + 1) rest).1, (binClassify hi (s + 1) rest).2) := by
  simp only [binClassify]
  rw [if_pos hP]

theorem binClassify_cons_neg (hi m : ℚ) (rest : List ℚ) (s : ℕ)
    (hP : ¬(1/100 < m ∧ m < hi)) :
    binClassify hi s (m :: rest) =
      ((binClassify hi (s + 1) rest).1,
        (if m ≤ 1/100 then 'l' else 'h') :: (binClassify hi (s + 1) rest).2) := by
  simp only [binClassify]
  rw [if_neg hP]

theorem binClassify_mem_fst (hi : ℚ) (l : List ℚ) (s bin : ℕ) :
    bin ∈ (binClassify hi s l).1 ↔
      s ≤ bin ∧ bin - s < l.length ∧
        1/100 < l.getD (bin - s) 0 ∧ l.getD (bin - s) 0 < hi := by
  induction l generalizing s with
  | nil => simp [binClassify]
  | cons m rest ih =>
    by_cases hP : 1/100 < m ∧ m < hi
    · rw [binClassify_cons_pos hi m rest s hP]
      simp only [List.mem_cons, ih (s + 1)]
      constructor
      · rintro (rfl | ⟨h1, h2, h3, h4⟩)
        · refine ⟨le_rfl, by simp, ?_, ?_⟩
          · simpa using hP.1
          · simpa using hP.2
        · refine ⟨by omega, by simp only [List.length_cons]; omega, ?_, ?_⟩
          · have e : bin - s = (bin - (s + 1)) + 1 := by omega
            rw [e, List.getD_cons_succ]; exact h3
          · have e : bin - s = (bin - (s + 1)) + 1 := by omega
            rw [e, List.getD_cons_succ]; exact h4
      · rintro ⟨h1, h2, h3, h4⟩
        rcases eq_or_lt_of_le h1 with rfl | hlt
        · exact Or.inl rfl
        · refine Or.inr ⟨by omega, by simp only [List.length_cons] at h2; omega, ?_, ?_⟩
          · have e : bin - s = (bin - (s + 1)) + 1 := by omega
            rw [e, List.getD_cons_succ] at h3; exact h3
          · have e : bin - s = (bin - (s + 1)) + 1 := by omega
            rw [e, List.getD_cons_succ] at h4; exact h4
    · rw [binClassify_cons_neg hi m rest s hP]
      rw [ih (s + 1)]
      constructor
      · rintro ⟨h1, h2, h3, h4⟩
        refine ⟨by omega, by simp only [List.length_cons]; omega, ?_, ?_⟩
        · have e : bin - s = (bin - (s + 1)) + 1 := by omega
          rw [e, List.getD_cons_succ]; exact h3
        · have e : bin - s = (bin - (s + 1)) + 1 := by omega
          rw [e, List.getD_cons_succ]; exact h4
      · rintro ⟨h1, h2, h3, h4⟩
        rcases eq_or_lt_of_le h1 with rfl | hlt
        · exfalso
          exact hP ⟨by simpa using h3, by simpa using h4⟩
        · refine ⟨by omega, by simp only [List.length_cons] at h2; omega, ?_, ?_⟩
          · have e : bin - s = (bin - (s + 1)) + 1 := by omega
            rw [e, List.getD_cons_succ] at h3; exact h3
          · have e : bin - s = (bin - (s + 1)) + 1 := by omega
            rw [e, List.getD_cons_succ] at h4; exact h4

theorem binClassify_snd (hi : ℚ) (l : List ℚ) (s : ℕ) :
    (binClassify hi s l).2 =
      (l.filter (fun m => !(decide (1/100 < m) && decide (m < hi)))).map
        (fun m => if m ≤ 1/100 then 'l' else 'h') := by
  induction l generalizing s with
  | nil => simp [binClassify]
  | cons m rest ih =>
    by_cases hP : 1/100 < m ∧ m < hi
    · have hb : (!(decide (1/100 < m) && decide (m < hi))) = false := by
        simp only [Bool.not_eq_false', Bool.and_eq_true, decide_eq_true_eq]
        exact hP
      rw [binClassify_cons_pos hi m rest s hP, List.filter_cons, hb]
      simpa using ih (s + 1)
    · have hb : (!(decide (1/100 < m) && decide (m < hi))) = true := by
        simp only [Bool.not_eq_true', Bool.and_eq_false_iff]
        rcases not_and_or.mp hP with h | h
        · exact Or.inl (decide_eq_false h)
        · exact Or.inr (decide_eq_false h)
      rw [binClassify_cons_neg hi m rest s hP, List.filter_cons, hb]
      simp [ih (s + 1)]

theorem binClassify_length (hi : ℚ) (l : List ℚ) (s : ℕ) :
    (binClassify hi s l).1.length + (binClassify hi s l).2.length = l.length := by
  induction l generalizing s with
  | nil => simp [binClassify]
  | cons m rest ih =>
    by_cases hP : 1/100 < m ∧ m < hi
    · rw [binClassify_cons_pos hi m rest s hP]
      simp only [List.length_cons]
      have := ih (s + 1); omega
    · rw [binClassify_cons_neg hi m rest s hP]
      simp only [List.length_cons]
      have := ih (s + 1); omega

theorem binMeansOf_length (counts : List (List Counter)) (medians : List ℚ) (nbins : ℕ) :
    (binMeansOf counts medians nbins).length = nbins := by
  simp [binMeansOf]

/-- C1.  A bin is classified good iff its across-cells mean of normalized
watson+crick counts is `> 0.01` and `< μ + 3σ`; a bad bin is tagged `'l'`
iff its mean is `≤ 0.01` and `'h'` otherwise; good-bin count plus bad-bin
count equals the total bin count.  Stated for arbitrary `μ` and `σ`, in
particular for the mean and standard deviation of the per-bin means that
the program computes upstream of the classification loop. -/
theorem c1_good_bad_bin_classification (counts : List (List Counter)) (medians : List ℚ)
    (nbins : ℕ) (μ σ : ℚ) :
    (∀ bin : ℕ, bin ∈ goodBinsOf (binMeansOf counts medians nbins) (μ + 3*σ) ↔
        bin < nbins ∧ 1/100 < (binMeansOf counts medians nbins).getD bin 0 ∧
          (binMeansOf counts medians nbins).getD bin 0 < μ + 3*σ)
    ∧ badBinsOf (binMeansOf counts medians nbins) (μ + 3*σ) =
        ((binMeansOf counts medians nbins).filter
            (fun m => !(decide (1/100 < m) && decide (m < μ + 3*σ)))).map
          (fun m => if m ≤ 1/100 then 'l' else 'h')
    ∧ (goodBinsOf (binMeansOf counts medians nbins) (μ + 3*σ)).length +
        (badBinsOf (binMeansOf counts medians nbins) (μ + 3*σ)).length = nbins := by
  refine ⟨fun bin => ?_, binClassify_snd _ _ 0, ?_⟩
  · rw [goodBinsOf, binClassify_mem_fst]
    simp [binMeansOf_length]
  · rw [goodBinsOf, badBinsOf, binClassify_length, binMeansOf_length]

theorem innerProd_map_map {α : Type} (l : List α) (f g : α → ℚ) :
    innerProd (l.map f) (l.map g) = (l.map (fun x => f x * g x)).sum := by
  induction l with
  | nil => simp [innerProd]
  | cons x xs ih => simp [innerProd] at ih ⊢; simp [ih]

/-- C2.  The fitted dispersion parameter of every sample equals
`Σ mean_i² / Σ (mean_i · var_i)` over the sample's member cells, where
`mean_i`/`var_i` are the mean and population variance of watson+crick
totals over good bins only; the fit is a closed-form expression and is
computed also for a sample with a single member cell. -/
theorem c2_dispersion_parameter_fit (cells : List CellInfo) (counts : List (List Counter))
    (good_bins : List ℕ) (name : String) :
    sampleP cells counts good_bins name =
      ((sampleMembers cells counts name).map (fun c => cellGoodMean c good_bins ^ 2)).sum /
        ((sampleMembers cells counts name).map
            (fun c => cellGoodMean c good_bins * cellGoodVar c good_bins)).sum
    ∧ ∀ cnt : List Counter,
        sampleP [⟨0, name, 0⟩] [cnt] good_bins name =
          cellGoodMean cnt good_bins ^ 2 /
            (cellGoodMean cnt good_bins * cellGoodVar cnt good_bins) := by
  have key : ∀ (cs : List CellInfo) (cts : List (List Counter)),
      sampleP cs cts good_bins name =
        ((sampleMembers cs cts name).map (fun c => cellGoodMean c good_bins ^ 2)).sum /
          ((sampleMembers cs cts name).map
              (fun c => cellGoodMean c good_bins * cellGoodVar c good_bins)).sum := by
    intro cs cts
    rw [sampleP, samplePFit, sampleMeans, sampleVars, innerProd_map_map, innerProd_map_map]
    simp only [pow_two]
  refine ⟨key cells counts, fun cnt => ?_⟩
  rw [key]
  have hmem : sampleMembers [⟨0, name, 0⟩] [cnt] name = [cnt] := by
    simp [sampleMembers]
  rw [hmem]
  simp

/-- C3.  Before each retained cell's decode, the three states' emissions
are pairs of over-dispersed count distributions with the sample's fitted
`p`: CC gets (crick mean `2n`, watson mean `z`), WC gets `(n, n)`, WW gets
`(z, 2n)`, where `n = median_bin_count / 2 · p / (1 - p)` and `z` is one
fixed constant, independent of the cell. -/
theorem c3_emission_reparameterization :
    ∃ z : ℚ, ∀ (cells : List CellInfo) (counts : List (List Counter)) (good_bins : List ℕ)
      (i : ℕ),
      decodeEmissions cells counts good_bins i =
        (fun p n => [(⟨p, 2*n⟩, ⟨p, z⟩), (⟨p, n⟩, ⟨p, n⟩), (⟨p, z⟩, ⟨p, 2*n⟩)])
          (sampleP cells counts good_bins (cells.getD i default).sample_name)
          ((cells.getD i default).median_bin_count / 2 *
              sampleP cells counts good_bins (cells.getD i default).sample_name /
            (1 - sampleP cells counts good_bins (cells.getD i default).sample_name)) :=
  ⟨1/2, fun _ _ _ _ => rfl⟩

/-- C4.  A cell's `median_bin_count` is the exact median of the finite
multiset of per-bin watson+crick totals over all bins (pre-filter), with
the even-size case averaging the two middle elements of the sorted
sequence. -/
theorem c4_median_bin_count (cnt : List Counter) :
    medianBinCount cnt =
      multisetMedian ((cnt.map (fun c => c.watson_count + c.crick_count) : List ℕ) :
        Multiset ℕ) := by
  have hsort :
      List.insertionSort (· ≤ ·) (cnt.map (fun c => c.watson_count + c.crick_count)) =
        Multiset.sort (· ≤ ·)
          ((cnt.map (fun c => c.watson_count + c.crick_count) : List ℕ) : Multiset ℕ) := by
    exact @List.eq_of_perm_of_sorted ℕ (· ≤ ·) _ _ _
      ((List.perm_insertionSort _ _).trans
        (Multiset.coe_eq_coe.mp (Multiset.sort_eq (· ≤ ·) _).symm))
      (List.sorted_insertionSort _ _) (Multiset.sort_sorted _ _)
  rw [medianBinCount, multisetMedian, listMedian, hsort, Multiset.coe_card]

/-- C6 fails as stated: for a sample with accumulated means `[2]` and
vars `[1]` the closed-form fit gives `p = 2`, outside `(0,1)`, yet the
estimation stage reports no error of any kind. -/
theorem c6_counterexample :
    (estimationStage [2] [1]).1 = 2 ∧
      ¬(0 < (estimationStage [2] [1]).1 ∧ (estimationStage [2] [1]).1 < 1) ∧
      (estimationStage [2] [1]).2 = [] := by
  refine ⟨?_, ?_, rfl⟩ <;> norm_num [estimationStage, samplePFit, innerProd]

/-- C6 amended: the code performs no range check on the fitted dispersion
parameter: the estimation stage never reports an error, and every
retained cell's decode proceeds with the plainly parameterized emissions
whatever the value of `p` is. -/
theorem c6_no_estimation_error_amended (means vars : List ℚ) (cells : List CellInfo)
    (counts : List (List Counter)) (good_bins : List ℕ) (i : ℕ) :
    (estimationStage means vars).2 = [] ∧
      decodeEmissions cells counts good_bins i =
        cellEmissions (sampleP cells counts good_bins (cells.getD i default).sample_name)
          (cells.getD i default).median_bin_count :=
  ⟨rfl, rfl⟩

/-- C7 fails as stated: with 5 total bins the diagonal transition entry
equals `-3 < 0`, so the matrix is not row-stochastic; and in every run
the initial-state distribution sums to `0.9999`, not 1. -/
theorem c7_counterexample :
    ((transitionMatrix 5).getD 0 []).getD 0 0 < 0 ∧ List.sum initials ≠ 1 ∧
      List.length initials = 3 := by
  refine ⟨?_, ?_, rfl⟩ <;> norm_num [transitionMatrix, p_trans, initials]

/-- C7 amended: off-diagonal transition entries are
`p_trans = 10 / total_bin_count` and diagonal entries `1 - 2·p_trans`;
every row sums to 1; when the total bin count is at least 20 all entries
are nonnegative; the initial-state distribution has length 3 and sums to
`0.9999` (not 1). -/
theorem c7_transition_matrix_amended (nbins : ℕ) (h : 20 ≤ nbins) :
    (∀ i j : ℕ, i < 3 → j < 3 →
        ((transitionMatrix nbins).getD i []).getD j 0 =
          if i = j then 1 - 2 * p_trans nbins else p_trans nbins)
    ∧ (∀ row ∈ transitionMatrix nbins, row.sum = 1)
    ∧ (∀ row ∈ transitionMatrix nbins, ∀ x ∈ row, 0 ≤ x)
    ∧ List.length initials = 3 ∧ List.sum initials = 9999 / 10000 := by
  have hb : (20:ℚ) ≤ (nbins:ℚ) := by exact_mod_cast h
  have hpos : (0:ℚ) < (nbins:ℚ) := by linarith
  have hp0 : 0 ≤ p_trans nbins := by
    unfold p_trans; positivity
  have hpd : 0 ≤ 1 - 2 * p_trans nbins := by
    unfold p_trans
    rw [sub_nonneg, show (2:ℚ) * (10 / (nbins:ℚ)) = 20 / (nbins:ℚ) by ring]
    exact (div_le_one hpos).mpr hb
  refine ⟨?_, ?_, ?_, rfl, by norm_num [initials]⟩
  · intro i j hi hj
    interval_cases i <;> interval_cases j <;> simp [transitionMatrix]
  · intro row hrow
    simp only [transitionMatrix, List.mem_cons, List.not_mem_nil, or_false] at hrow
    rcases hrow with rfl | rfl | rfl <;> · simp; ring
  · intro row hrow x hx
    simp only [transitionMatrix, List.mem_cons, List.not_mem_nil, or_false] at hrow
    rcases hrow with rfl | rfl | rfl <;>
      · simp only [List.mem_cons, List.not_mem_nil, or_false] at hx
        rcases hx with rfl | rfl | rfl <;> first | exact hpd | exact hp0

/-- Witness for the amended C7 at 20 total bins. -/
theorem c7_transition_matrix_amended_witness :
    (∀ i j : ℕ, i < 3 → j < 3 →
        ((transitionMatrix 20).getD i []).getD j 0 =
          if i = j then 1 - 2 * p_trans 20 else p_trans 20)
    ∧ (∀ row ∈ transitionMatrix 20, row.sum = 1)
    ∧ (∀ row ∈ transitionMatrix 20, ∀ x ∈ row, 0 ≤ x)
    ∧ List.length initials = 3 ∧ List.sum initials = 9999 / 10000 :=
  c7_transition_matrix_amended 20 (by norm_num)

/-- C5 fails on the code: in the concrete failing run, the single
surviving cell is the one read from input file 1 (stem "cellB"), and the
emitted row indeed holds its counts (crick 7, watson 5) and its sample —
but the row's cell-identifier column says "cellA", the stem of the
dropped file 0. -/
theorem c5_cell_column_misnamed_after_drop :
    passEx.1.map (fun c => c.id) = [1] ∧
      rowsEx.map (fun r => r.c) = [7] ∧
      rowsEx.map (fun r => r.w) = [5] ∧
      rowsEx.map (fun r => r.sample) = ["S"] ∧
      rowsEx.map (fun r => r.cell) = ["cellA"] ∧
      ["cellA", "cellB"].getD 1 "" = "cellB" ∧
      ("cellA" : String) ≠ "cellB" := by
  refine ⟨rfl, rfl, rfl, rfl, rfl, rfl, by decide⟩

/-- C10.  The bin-quality normalization divides by `median_bin_count`
with no zero guard: whenever a retained cell's per-bin totals have median
zero, every one of its normalized counts is the result of a division by
zero (embedded in `ℚ`, where `x / 0 = 0`). -/
theorem c10_normalization_division_by_zero (cnt : List Counter)
    (h : medianBinCount cnt = 0) :
    cellNormCounts cnt =
      cnt.map (fun c => ((c.watson_count : ℚ) / 0, (c.crick_count : ℚ) / 0)) := by
  rw [cellNormCounts, h, normCell]

/-- Witness for C10: a cell with three bins, two of them empty, has
median per-bin total 0, and all its normalized counts divide by zero. -/
theorem c10_normalization_division_by_zero_witness :
    medianBinCount [⟨0, 0, "None"⟩, ⟨0, 0, "None"⟩, ⟨1, 2, "None"⟩] = 0 ∧
      cellNormCounts [⟨0, 0, "None"⟩, ⟨0, 0, "None"⟩, ⟨1, 2, "None"⟩] =
        [(⟨0, 0, "None"⟩ : Counter), ⟨0, 0, "None"⟩, ⟨1, 2, "None"⟩].map
          (fun c => ((c.watson_count : ℚ) / 0, (c.crick_count : ℚ) / 0)) := by
  have h0 : medianBinCount [⟨0, 0, "None"⟩, ⟨0, 0, "None"⟩, ⟨1, 2, "None"⟩] = 0 := by
    norm_num [medianBinCount, listMedian, List.insertionSort, List.orderedInsert]
  exact ⟨h0, c10_normalization_division_by_zero _ h0⟩

theorem set_append_length {α : Type} (A : List α) (x y : α) (rest : List α) :
    (A ++ x :: rest).set A.length y = A ++ y :: rest := by
  induction A with
  | nil => rfl
  | cons a as ih =>
    show a :: (as ++ x :: rest).set as.length y = a :: (as ++ y :: rest)
    rw [ih]

theorem eraseIdx_append_length {α : Type} (A : List α) (x : α) (rest : List α) :
    (A ++ x :: rest).eraseIdx A.length = A ++ rest := by
  induction A with
  | nil => rfl
  | cons a as ih =>
    show a :: (as ++ x :: rest).eraseIdx as.length = a :: (as ++ rest)
    rw [ih]

theorem countingLoop_spec (reader : ℕ → Option (List Counter)) (hc : ℕ → CellInfo) :
    ∀ (files : List ℕ) (A : List CellInfo) (B : List (List Counter)) (W : List ℕ),
      A.length = B.length →
      countingLoop reader files (A ++ files.map hc)
          (B ++ List.replicate files.length []) A.length W =
        (A ++ (files.filter (fun f => (reader f).isSome)).map hc,
         B ++ (files.filter (fun f => (reader f).isSome)).map (fun f => (reader f).getD []),
         W ++ files.filter (fun f => (reader f).isNone)) := by
  intro files
  induction files with
  | nil =>
    intro A B W hAB
    simp [countingLoop]
  | cons f fs ih =>
    intro A B W hAB
    rw [countingLoop]
    cases hr : reader f with
    | some res =>
      simp only []
      rw [List.map_cons, List.length_cons, List.replicate_succ,
        show (B ++ [] :: List.replicate fs.length ([] : List Counter)).set A.length res =
            B ++ res :: List.replicate fs.length [] from by
          rw [hAB]; exact set_append_length B _ _ _]
      have h2 := ih (A ++ [hc f]) (B ++ [res]) W (by simp [hAB])
      simp only [List.append_assoc, List.singleton_append, List.length_append,
        List.length_cons, List.length_nil, Nat.add_zero, Nat.zero_add] at h2
      rw [show A ++ hc f :: fs.map hc = A ++ ([hc f] ++ fs.map hc) from rfl] at h2
      simp only [List.singleton_append] at h2
      rw [h2]
      simp only [List.filter_cons, hr, Option.isSome_some, Option.isNone_some,
        if_true, if_false, List.map_cons, Option.getD_some]
      simp
    | none =>
      simp only []
      rw [List.map_cons, List.length_cons, List.replicate_succ,
        show (A ++ hc f :: fs.map hc).eraseIdx A.length = A ++ fs.map hc from
          eraseIdx_append_length A _ _,
        show (B ++ [] :: List.replicate fs.length ([] : List Counter)).eraseIdx A.length =
            B ++ List.replicate fs.length [] from by
          rw [hAB]; exact eraseIdx_append_length B _ _]
      rw [ih A B (W ++ [f]) hAB]
      simp only [List.filter_cons, hr, Option.isSome_none, Option.isNone_none,
        if_true, if_false, List.append_assoc, List.singleton_append]
      simp

/-- C8.  If reading an input file fails, that cell and its counts are
dropped in lock-step: for every reader oracle, the counting pass returns
exactly the successfully read files' header cells and counters, in file
order, with the two sequences aligned (equal length, entry `k` of both
coming from the same file), a warning recorded for each failed file, and
the pass always returning (counting continues over the remaining files;
no failure aborts it). -/
theorem c8_failed_reads_dropped_lockstep (sampleNames : List String)
    (reader : ℕ → Option (List Counter)) :
    (countingPass sampleNames reader).1 =
        ((List.range sampleNames.length).filter (fun f => (reader f).isSome)).map
          (fun i => (⟨i, sampleNames.getD i "", 0⟩ : CellInfo))
    ∧ (countingPass sampleNames reader).2.1 =
        ((List.range sampleNames.length).filter (fun f => (reader f).isSome)).map
          (fun f => (reader f).getD [])
    ∧ (countingPass sampleNames reader).2.2 =
        (List.range sampleNames.length).filter (fun f => (reader f).isNone)
    ∧ (countingPass sampleNames reader).1.length =
        (countingPass sampleNames reader).2.1.length := by
  have h := countingLoop_spec reader (fun i => (⟨i, sampleNames.getD i "", 0⟩ : CellInfo))
    (List.range sampleNames.length) [] [] [] rfl
  simp only [List.nil_append, List.length_nil, List.length_range] at h
  have heq : countingPass sampleNames reader =
      (((List.range sampleNames.length).filter (fun f => (reader f).isSome)).map
          (fun i => (⟨i, sampleNames.getD i "", 0⟩ : CellInfo)),
        ((List.range sampleNames.length).filter (fun f => (reader f).isSome)).map
          (fun f => (reader f).getD []),
        (List.range sampleNames.length).filter (fun f => (reader f).isNone)) := by
    rw [countingPass, headerCells]
    exact h
  refine ⟨by rw [heq], by rw [heq], by rw [heq], ?_⟩
  rw [heq]
  simp

theorem advancePos_ge (chrs : List ℕ) (chr : ℕ) (pos : ℕ) : pos ≤ advancePos chrs chr pos := by
  have key : ∀ (fuel p : ℕ), chrs.length - p ≤ fuel → p ≤ advancePos chrs chr p := by
    intro fuel
    induction fuel with
    | zero =>
      intro p hf
      rw [advancePos]
      split_ifs with hcond
      · exact absurd hcond.1 (by omega)
      · exact le_refl p
    | succ n ihn =>
      intro p hf
      rw [advancePos]
      split_ifs with hcond
      · exact le_trans (Nat.le_succ p) (ihn (p + 1) (by omega))
      · exact le_refl p
  exact key chrs.length pos (by omega)

theorem advancePos_le_length (chrs : List ℕ) (chr : ℕ) (pos : ℕ) (hpos : pos ≤ chrs.length) :
    advancePos chrs chr pos ≤ chrs.length := by
  have key : ∀ (fuel p : ℕ), chrs.length - p ≤ fuel → p ≤ chrs.length →
      advancePos chrs chr p ≤ chrs.length := by
    intro fuel
    induction fuel with
    | zero =>
      intro p hf hp
      rw [advancePos]
      split_ifs with hcond
      · exact absurd hcond.1 (by omega)
      · exact hp
    | succ n ihn =>
      intro p hf hp
      rw [advancePos]
      split_ifs with hcond
      · exact ihn (p + 1) (by omega) (by omega)
      · exact hp
  exact key chrs.length pos (by omega) hpos

theorem chromIndexLoop_spec (chrs : List ℕ) :
    ∀ (k chr pos : ℕ), pos ≤ chrs.length →
      List.Chain' (· ≤ ·) (chromIndexLoop chrs pos chr k) ∧
        ∀ x ∈ chromIndexLoop chrs pos chr k, pos ≤ x ∧ x ≤ chrs.length := by
  intro k
  induction k with
  | zero =>
    intro chr pos hp
    constructor
    · simp [chromIndexLoop]
    · intro x hx
      simp [chromIndexLoop] at hx
  | succ n ihn =>
    intro chr pos hp
    have h1 : pos ≤ advancePos chrs chr pos := advancePos_ge chrs chr pos
    have h2 : advancePos chrs chr pos ≤ chrs.length := advancePos_le_length chrs chr pos hp
    have hcl : (if chrs.length ≤ advancePos chrs chr pos then chrs.length
        else advancePos chrs chr pos) = advancePos chrs chr pos := by
      split_ifs with hcond
      · omega
      · rfl
    obtain ⟨ihc, ihb⟩ := ihn (chr + 1) (advancePos chrs chr pos) h2
    constructor
    · rw [chromIndexLoop, hcl]
      cases hrest : chromIndexLoop chrs (advancePos chrs chr pos) (chr + 1) n with
      | nil => simp
      | cons y ys =>
        rw [List.chain'_cons]
        constructor
        · exact (ihb y (by rw [hrest]; exact List.mem_cons_self _ _)).1
        · rw [← hrest]
          exact ihc
    · intro x hx
      rw [chromIndexLoop, hcl] at hx
      rcases List.mem_cons.mp hx with rfl | hx2
      · exact ⟨h1, h2⟩
      · obtain ⟨ha, hb⟩ := ihb x hx2
        exact ⟨le_trans h1 ha, hb⟩

theorem chromIndex_chain_sentinel (chrs : List ℕ) (nTargets : ℕ) :
    List.Chain' (· ≤ ·) (chromIndex chrs nTargets) ∧
      (chromIndex chrs nTargets).getLast? = some chrs.length := by
  obtain ⟨hc, hb⟩ := chromIndexLoop_spec chrs nTargets 0 0 (Nat.zero_le _)
  refine ⟨?_, ?_⟩
  · rw [chromIndex]
    apply List.Chain'.append hc (List.chain'_singleton _)
    intro x hx y hy
    simp only [List.head?_cons, Option.mem_def, Option.some.injEq] at hy
    subst hy
    exact (hb x (List.mem_of_mem_getLast? hx)).2
  · rw [chromIndex]
    exact List.getLast?_concat _

/-- C9.  Both the raw chromosome index and the good-bin chromosome index
are monotonically non-decreasing across chromosomes, and each ends in a
sentinel entry equal to the total bin count (respectively the good-bin
count) — for every input, with no sortedness assumption needed. -/
theorem c9_chromosome_index_invariants (bins : List Interval) (good_bins : List ℕ)
    (nTargets : ℕ) :
    (List.Chain' (· ≤ ·) (rawChromMap bins nTargets) ∧
        (rawChromMap bins nTargets).getLast? = some bins.length)
    ∧ (List.Chain' (· ≤ ·) (goodChromMap bins good_bins nTargets) ∧
        (goodChromMap bins good_bins nTargets).getLast? = some good_bins.length) := by
  constructor
  · simp only [rawChromMap]
    have h := chromIndex_chain_sentinel (bins.map (fun b => b.chr)) nTargets
    rwa [List.length_map] at h
  · simp only [goodChromMap]
    have h := chromIndex_chain_sentinel
      (good_bins.map (fun g => (bins.getD g default).chr)) nTargets
    rwa [List.length_map] at h

end Mosaic
